import Mathlib

/-!
Verification of the neural-network diagram core (`manim_ml/neural_network/neural_network.py`).

The layout engine, connective synthesizer and animation composition of
`NeuralNetwork` are embedded as pure Lean functions over rational scene
coordinates.  Layers and connectors are opaque collaborators of the core:
their concrete classes (`FeedForwardLayer`, `ImageLayer`,
`FeedForwardToFeedForward`, `ImageToFeedForward`) live outside the verified
module and are modelled from the specification's capability contracts.
-/

namespace ManimML

/-- Capability type tag of a layer, used by the synthesizer's dispatch
(`isinstance` checks on `FeedForwardLayer` / `ImageLayer`; any other layer
class falls in the `other` bucket). -/
inductive LayerTag where
  | ff
  | image
  | other
deriving DecidableEq

/-- Colors appearing in the style configuration (`WHITE`, `RED`, `BLUE`). -/
inductive Color where
  | white
  | red
  | blue
deriving DecidableEq

/-- A point of the 3-dimensional scene space (manim centers are 3-vectors). -/
structure Vec3 where
  x : ℚ
  y : ℚ
  z : ℚ
deriving DecidableEq

/-- Modelled from the spec: a Layer is an opaque positionable, boundable,
renderable unit with a center, an intrinsic width, a render depth
(`z_index`), a capability type tag, a node count (for feed-forward layers)
and opaque forward-pass / creation animation durations. -/
structure Layer where
  tag : LayerTag
  nodes : Nat
  center : Vec3
  width : ℚ
  zIndex : ℤ
  fwdDur : ℚ
  createDur : ℚ
deriving DecidableEq

/-- The connector variant chosen by the synthesizer's dispatch. -/
inductive ConnectorKind where
  | ffToFF
  | imageToFF
deriving DecidableEq

/-- Modelled from the spec: a Connector bridges exactly two adjacent Layers
(a non-owning reference, used only to read their geometry), carries the
style parameter it was constructed with, a render depth, and opaque
animation durations. -/
structure Connector where
  kind : ConnectorKind
  src : Layer
  dst : Layer
  edgeWidth : ℚ
  dotRadius : ℚ
  zIndex : ℤ
  fwdDur : ℚ
  createDur : ℚ
deriving DecidableEq

/-- Modelled from the spec: the `FeedForwardToFeedForward` connector class is
not part of the verified module; it is constructed from the two adjacent
layers and a shared edge width.  Its animation durations are opaque contract
values, modelled as the unit default. -/
def FeedForwardToFeedForward (src dst : Layer) (edgeWidth : ℚ) : Connector :=
  { kind := ConnectorKind.ffToFF, src := src, dst := dst, edgeWidth := edgeWidth,
    dotRadius := 0, zIndex := 0, fwdDur := 1, createDur := 1 }

/-- Modelled from the spec: the `ImageToFeedForward` connector class is not
part of the verified module; it is constructed from the two adjacent layers
and a dot radius.  Its animation durations are opaque contract values,
modelled as the unit default. -/
def ImageToFeedForward (src dst : Layer) (dotRadius : ℚ) : Connector :=
  { kind := ConnectorKind.imageToFF, src := src, dst := dst, edgeWidth := 0,
    dotRadius := dotRadius, zIndex := 0, fwdDur := 1, createDur := 1 }

/-- Modelled from the spec: the `FeedForwardLayer` class is not part of the
verified module; it is a feed-forward layer with a given node count, node
color and node radius, default position at the origin, and an opaque
intrinsic bounding box (its width is modelled as twice the node radius; no
claim depends on the particular value). -/
def FeedForwardLayer (numNodes : Nat) (nodeColor : Color) (nodeRadius : ℚ) : Layer :=
  { tag := LayerTag.ff, nodes := numNodes, center := ⟨0, 0, 0⟩,
    width := 2 * nodeRadius, zIndex := 0, fwdDur := 1, createDur := 1 }

/-- Modelled from the spec: the `ImageLayer` class is not part of the
verified module; it is an image layer with an opaque bounding box of the
given width and default position at the origin. -/
def ImageLayer (width : ℚ) : Layer :=
  { tag := LayerTag.image, nodes := 0, center := ⟨0, 0, 0⟩,
    width := width, zIndex := 0, fwdDur := 1, createDur := 1 }

/-- An element of the interleaved display sequence (`all_layers`): either a
layer or a connector. -/
inductive Element where
  | layer (l : Layer)
  | conn (c : Connector)
deriving DecidableEq

/-- Render depth of a display element. -/
def Element.zIndex : Element → ℤ
  | Element.layer l => l.zIndex
  | Element.conn c => c.zIndex

/-- Whether a display element is a layer (as opposed to a connector). -/
def Element.isLayerElem : Element → Bool
  | Element.layer _ => true
  | Element.conn _ => false

/-- Default creation-animation duration of a display element. -/
def Element.createDur : Element → ℚ
  | Element.layer l => l.createDur
  | Element.conn c => c.createDur

/-- One step of the layout loop of `NeuralNetwork._place_layers`:
`current_layer.move_to(previous_layer.get_center())` followed by
`current_layer.shift([spacing, 0, 0])` with
`spacing = config.frame_width * 0.05 + (previous_layer.width / 2 + current_layer.width / 2)`. -/
def placeStep (fw : ℚ) (prev cur : Layer) : Layer :=
  { cur with center :=
      ⟨prev.center.x + (fw * (5 / 100) + (prev.width / 2 + cur.width / 2)),
       prev.center.y, prev.center.z⟩ }

/-- The positioning loop of `NeuralNetwork._place_layers`, starting from an
already placed previous layer. -/
def placeFrom (fw : ℚ) : Layer → List Layer → List Layer
  | _, [] => []
  | prev, cur :: rest => placeStep fw prev cur :: placeFrom fw (placeStep fw prev cur) rest

/-- The final `self.input_layers.set_z_index(2)` of `_place_layers`, applied
to one layer. -/
def setLayerDepth (l : Layer) : Layer := { l with zIndex := 2 }

/-- `NeuralNetwork._place_layers`: positions the layers left to right (the
first layer is the unmoved anchor) and then sets every layer's z-index to 2. -/
def placeLayers (fw : ℚ) : List Layer → List Layer
  | [] => []
  | l0 :: rest => (l0 :: placeFrom fw l0 rest).map setLayerDepth

/-- The connector dispatch of `_construct_connective_layers`: the
`isinstance` chain over the pair of layer classes, first match wins,
no match yields no connector. -/
def dispatchConnector (ew dr : ℚ) (cur next : Layer) : Option Connector :=
  match cur.tag, next.tag with
  | LayerTag.ff, LayerTag.ff => some (FeedForwardToFeedForward cur next ew)
  | LayerTag.image, LayerTag.ff => some (ImageToFeedForward cur next dr)
  | _, _ => none

/-- Whether the synthesizer supports a pair of layer type tags. -/
def supportedTags : LayerTag → LayerTag → Bool
  | LayerTag.ff, LayerTag.ff => true
  | LayerTag.image, LayerTag.ff => true
  | _, _ => false

/-- Result of the synthesis loop: the connector sequence, the interleaved
display sequence and the emitted unsupported-pair warnings (each records the
two type tags of the offending adjacency). -/
structure SynthResult where
  conns : List Connector
  elems : List Element
  warns : List (LayerTag × LayerTag)
deriving DecidableEq

/-- The loop body of `_construct_connective_layers`: walks the adjacent
pairs, adds each layer to `all_layers`, adds a dispatched connector to both
`connective_layers` and `all_layers` or records a warning, and finally adds
the last layer to `all_layers`. -/
def synthChain (ew dr : ℚ) : Layer → List Layer → SynthResult
  | last, [] => ⟨[], [Element.layer last], []⟩
  | cur, next :: rest =>
    let r := synthChain ew dr next rest
    match dispatchConnector ew dr cur next with
    | some c => ⟨c :: r.conns, Element.layer cur :: Element.conn c :: r.elems, r.warns⟩
    | none => ⟨r.conns, Element.layer cur :: r.elems, (cur.tag, next.tag) :: r.warns⟩

/-- The `connective_layers.set_z_index(0)` of `_construct_connective_layers`,
applied to one connector. -/
def setConnectorDepthC (c : Connector) : Connector := { c with zIndex := 0 }

/-- The z-index update seen by the display sequence: the connector objects in
`all_layers` are the same objects as in `connective_layers`, so the value
model applies the depth update to the connector elements as well. -/
def setConnectorDepth : Element → Element
  | Element.layer l => Element.layer l
  | Element.conn c => Element.conn (setConnectorDepthC c)

/-- `NeuralNetwork._construct_connective_layers`.  On an empty layer
sequence the final `self.input_layers[-1]` access raises (modelled as
`none`); otherwise the synthesis loop runs and the connectors' z-index is
forced to 0. -/
def constructConnectiveLayers (ew dr : ℚ) : List Layer → Option SynthResult
  | [] => none
  | l :: rest =>
    let r := synthChain ew dr l rest
    some ⟨r.conns.map setConnectorDepthC, r.elems.map setConnectorDepth, r.warns⟩

/-- The state of a constructed `NeuralNetwork`: the placed input layers, the
derived connector sequence, the interleaved display sequence (`all_layers`),
the emitted warnings, and the stored style configuration. -/
structure NeuralNetwork where
  inputLayers : List Layer
  connectiveLayers : List Connector
  allLayers : List Element
  warnings : List (LayerTag × LayerTag)
  edgeColor : Color
  layerSpacing : ℚ
  animationDotColor : Color
  edgeWidth : ℚ
  dotRadius : ℚ
deriving DecidableEq

/-- `NeuralNetwork.__init__` up to the final recentering: stores the style
options, runs `_place_layers` and `_construct_connective_layers`, and fails
(`none`) exactly when the latter raises.  The final
`all_layers.move_to(ORIGIN)` is the uniform translation `recenterBy` below. -/
def NeuralNetwork.construct (fw : ℚ) (inputs : List Layer) (edgeColor : Color)
    (layerSpacing : ℚ) (animationDotColor : Color) (edgeWidth : ℚ) (dotRadius : ℚ) :
    Option NeuralNetwork :=
  let placed := placeLayers fw inputs
  match constructConnectiveLayers edgeWidth dotRadius placed with
  | none => none
  | some r =>
      some ⟨placed, r.conns, r.elems, r.warns,
            edgeColor, layerSpacing, animationDotColor, edgeWidth, dotRadius⟩

/-- Default `edge_color=WHITE` of `NeuralNetwork.__init__`. -/
def defaultEdgeColor : Color := Color.white

/-- Default `layer_spacing=0.8` of `NeuralNetwork.__init__` (stored, unused). -/
def defaultLayerSpacing : ℚ := 4 / 5

/-- Default `animation_dot_color=RED` of `NeuralNetwork.__init__`. -/
def defaultAnimationDotColor : Color := Color.red

/-- Default `edge_width=1.5` of `NeuralNetwork.__init__`. -/
def defaultEdgeWidth : ℚ := 3 / 2

/-- Default `dot_radius=0.03` of `NeuralNetwork.__init__`. -/
def defaultDotRadius : ℚ := 3 / 100

/-- Default `run_time=10` of `make_forward_pass_animation`. -/
def defaultRunTime : ℚ := 10

/-- Translation of a point by a vector. -/
def Vec3.add (v w : Vec3) : Vec3 := ⟨v.x + w.x, v.y + w.y, v.z + w.z⟩

/-- Translation of a layer (only its center moves). -/
def Layer.shiftBy (v : Vec3) (l : Layer) : Layer := { l with center := l.center.add v }

/-- Translation of a connector: its referenced layer geometry moves with it. -/
def Connector.shiftBy (v : Vec3) (c : Connector) : Connector :=
  { c with src := Layer.shiftBy v c.src, dst := Layer.shiftBy v c.dst }

/-- Translation of a display element. -/
def Element.shiftBy (v : Vec3) : Element → Element
  | Element.layer l => Element.layer (Layer.shiftBy v l)
  | Element.conn c => Element.conn (Connector.shiftBy v c)

/-- Modelled from the spec: the final `self.all_layers.move_to(ORIGIN)` is a
uniform translation of the whole diagram; the concrete vector is determined
by the bounding box of the display group and is abstracted as a parameter. -/
def NeuralNetwork.recenterBy (nn : NeuralNetwork) (v : Vec3) : NeuralNetwork :=
  { nn with inputLayers := nn.inputLayers.map (Layer.shiftBy v),
            connectiveLayers := nn.connectiveLayers.map (Connector.shiftBy v),
            allLayers := nn.allLayers.map (Element.shiftBy v) }

/-- Kind of a leaf animation produced by the composite. -/
inductive AnimKind where
  | forwardPass
  | create
deriving DecidableEq

/-- A leaf animation: which element produced it, which factory, and its
duration. -/
structure AnimAtom where
  source : Element
  kind : AnimKind
  dur : ℚ
deriving DecidableEq

/-- Modelled from the spec: the rendering environment's animation-group
primitive, with an explicit lag ratio and an optional total-duration
override (`run_time`). -/
structure AnimationGroup where
  subs : List AnimAtom
  runTimeArg : Option ℚ
  lag : ℚ
deriving DecidableEq

/-- Maximal end time of the chained sub-animations: sub-animation `k + 1`
starts `lag * dur k` after sub-animation `k` starts. -/
def maxEndAux (lag : ℚ) : ℚ → ℚ → List AnimAtom → ℚ
  | _, acc, [] => acc
  | start, acc, a :: rest =>
      maxEndAux lag (start + lag * a.dur) (max acc (start + a.dur)) rest

/-- Total duration of an animation group: the `run_time` override when one
was supplied, else the maximal sub-animation end time under the lag-ratio
chaining (modelled from the spec's composition contract). -/
def AnimationGroup.runTime (g : AnimationGroup) : ℚ :=
  match g.runTimeArg with
  | some t => t
  | none => maxEndAux g.lag 0 0 g.subs

/-- Start times of the chained sub-animations. -/
def startsAux (lag : ℚ) : ℚ → List AnimAtom → List ℚ
  | _, [] => []
  | t, a :: rest => t :: startsAux lag (t + lag * a.dur) rest

/-- Start times of an animation group's sub-animations. -/
def AnimationGroup.startTimes (g : AnimationGroup) : List ℚ :=
  startsAux g.lag 0 g.subs

/-- The forward-pass animation a layer supplies
(`layer.make_forward_pass_animation()`), an opaque leaf with the layer's
forward duration. -/
def layerFwdAtom (l : Layer) : AnimAtom :=
  ⟨Element.layer l, AnimKind.forwardPass, l.fwdDur⟩

/-- The forward-pass animation a connector supplies. -/
def connFwdAtom (c : Connector) : AnimAtom :=
  ⟨Element.conn c, AnimKind.forwardPass, c.fwdDur⟩

/-- The collection loop of `make_forward_pass_animation`: for every layer
but the last, append the layer's forward animation and then
`self.connective_layers[layer_index]`'s; the positional index access fails
(`none`, an `IndexError`) when the connector sequence is too short.  On an
empty layer sequence the final `self.input_layers[-1]` access fails too. -/
def forwardAtoms (conns : List Connector) : Nat → List Layer → Option (List AnimAtom)
  | _, [] => none
  | _, [l] => some [layerFwdAtom l]
  | i, l :: l2 :: rest =>
    match conns[i]? with
    | none => none
    | some c =>
      match forwardAtoms conns (i + 1) (l2 :: rest) with
      | none => none
      | some tail => some (layerFwdAtom l :: connFwdAtom c :: tail)

/-- `NeuralNetwork.make_forward_pass_animation`: collects the per-component
forward animations and wraps them in
`AnimationGroup(*anims, run_time=run_time, lag_ratio=1.0)`.  The
`passing_flash` flag is accepted and never read, as in the source. -/
def NeuralNetwork.makeForwardPassAnimation (nn : NeuralNetwork) (runTime : ℚ)
    (passingFlash : Bool) : Option AnimationGroup :=
  match forwardAtoms nn.connectiveLayers 0 nn.inputLayers with
  | none => none
  | some atoms => some ⟨atoms, some runTime, 1⟩

/-- Modelled from the spec: the rendering environment's per-renderable
`Create` animation, with the element's default creation duration. -/
def CreateAnim (e : Element) : AnimAtom := ⟨e, AnimKind.create, Element.createDur e⟩

/-- `NeuralNetwork._create_override` (the `Create` override): one creation
animation per element of `all_layers`, in order, wrapped in
`AnimationGroup(*animations, lag_ratio=1.0)` with no duration override. -/
def NeuralNetwork.createOverride (nn : NeuralNetwork) : AnimationGroup :=
  ⟨nn.allLayers.map CreateAnim, none, 1⟩

/-- `FeedForwardNeuralNetwork.__init__`: builds one `FeedForwardLayer` per
node count, in list order, and delegates to `NeuralNetwork.__init__`. -/
def FeedForwardNeuralNetwork.construct (fw : ℚ) (layerNodeCount : List Nat)
    (nodeRadius : ℚ) (nodeColor : Color) (edgeColor : Color) (layerSpacing : ℚ)
    (animationDotColor : Color) (edgeWidth : ℚ) (dotRadius : ℚ) :
    Option NeuralNetwork :=
  NeuralNetwork.construct fw
    (layerNodeCount.map (fun n => FeedForwardLayer n nodeColor nodeRadius))
    edgeColor layerSpacing animationDotColor edgeWidth dotRadius

/-- Default `node_radius=0.08` of `FeedForwardNeuralNetwork.__init__`. -/
def defaultNodeRadius : ℚ := 2 / 25

/-- Default `node_color=BLUE` of `FeedForwardNeuralNetwork.__init__`. -/
def defaultNodeColor : Color := Color.blue

/-- The interleaved display sequence `[L0, C0, L1, C1, …, L_last]` described
by the spec, used to state what `all_layers` contains. -/
def interleave : List Layer → List Connector → List Element
  | [], _ => []
  | l :: _, [] => [Element.layer l]
  | l :: rest, c :: cs => Element.layer l :: Element.conn c :: interleave rest cs

/-- The type-tag pairs of the unsupported adjacencies of a layer sequence,
in chain order; used to state what warnings the synthesizer emits. -/
def unsupportedAdjacent : List Layer → List (LayerTag × LayerTag)
  | [] => []
  | [_] => []
  | a :: b :: rest =>
    if supportedTags a.tag b.tag then unsupportedAdjacent (b :: rest)
    else (a.tag, b.tag) :: unsupportedAdjacent (b :: rest)

/-- The per-pair placement relation of the layout engine: the right layer's
center is the left layer's center shifted horizontally by the computed
spacing, with unchanged vertical and depth coordinates. -/
def spaced (fw : ℚ) (a b : Layer) : Prop :=
  b.center = ⟨a.center.x + (fw * (5 / 100) + (a.width / 2 + b.width / 2)),
              a.center.y, a.center.z⟩

/-- The positioning loop only rewrites centers, so any field that ignores the
center is preserved. -/
theorem placeFrom_map_blind {α : Type} (fw : ℚ) (f : Layer → α)
    (hf : ∀ (l : Layer) (v : Vec3), f { l with center := v } = f l) :
    ∀ (prev : Layer) (ls : List Layer), (placeFrom fw prev ls).map f = ls.map f := by
  intro prev ls
  induction ls generalizing prev with
  | nil => rfl
  | cons cur rest ih => simp [placeFrom, placeStep, hf, ih]

/-- The layout phase preserves every layer's width. -/
theorem placeLayers_map_width (fw : ℚ) (ls : List Layer) :
    (placeLayers fw ls).map Layer.width = ls.map Layer.width := by
  cases ls with
  | nil => rfl
  | cons l0 rest =>
      show ((l0 :: placeFrom fw l0 rest).map setLayerDepth).map Layer.width = _
      rw [List.map_map]
      show (l0 :: placeFrom fw l0 rest).map Layer.width = _
      simp [placeFrom_map_blind fw Layer.width (fun _ _ => rfl)]

/-- The layout phase preserves every layer's type tag. -/
theorem placeLayers_map_tag (fw : ℚ) (ls : List Layer) :
    (placeLayers fw ls).map Layer.tag = ls.map Layer.tag := by
  cases ls with
  | nil => rfl
  | cons l0 rest =>
      show ((l0 :: placeFrom fw l0 rest).map setLayerDepth).map Layer.tag = _
      rw [List.map_map]
      show (l0 :: placeFrom fw l0 rest).map Layer.tag = _
      simp [placeFrom_map_blind fw Layer.tag (fun _ _ => rfl)]

/-- The layout phase preserves every layer's node count. -/
theorem placeLayers_map_nodes (fw : ℚ) (ls : List Layer) :
    (placeLayers fw ls).map Layer.nodes = ls.map Layer.nodes := by
  cases ls with
  | nil => rfl
  | cons l0 rest =>
      show ((l0 :: placeFrom fw l0 rest).map setLayerDepth).map Layer.nodes = _
      rw [List.map_map]
      show (l0 :: placeFrom fw l0 rest).map Layer.nodes = _
      simp [placeFrom_map_blind fw Layer.nodes (fun _ _ => rfl)]

/-- The layout phase preserves the number of layers. -/
theorem placeLayers_length (fw : ℚ) (ls : List Layer) :
    (placeLayers fw ls).length = ls.length := by
  have h := congrArg List.length (placeLayers_map_width fw ls)
  simpa using h

/-- After `_place_layers`, every layer's z-index is 2. -/
theorem placeLayers_zIndex (fw : ℚ) (ls : List Layer) :
    ∀ l ∈ placeLayers fw ls, l.zIndex = 2 := by
  cases ls with
  | nil => simp [placeLayers]
  | cons l0 rest =>
      intro l hl
      simp only [placeLayers, List.mem_map] at hl
      obtain ⟨x, _, rfl⟩ := hl
      rfl

/-- Each positioned layer stands in the `spaced` relation to its
predecessor. -/
theorem chain_placeFrom (fw : ℚ) : ∀ (prev : Layer) (ls : List Layer),
    List.Chain' (spaced fw) (prev :: placeFrom fw prev ls) := by
  intro prev ls
  induction ls generalizing prev with
  | nil => simp [placeFrom]
  | cons cur rest ih =>
      rw [placeFrom]
      exact List.chain'_cons.mpr ⟨rfl, ih (placeStep fw prev cur)⟩

/-- The `spaced` chain survives the final z-index pass of `_place_layers`. -/
theorem chain_placeLayers (fw : ℚ) (l0 : Layer) (rest : List Layer) :
    List.Chain' (spaced fw) (placeLayers fw (l0 :: rest)) := by
  show List.Chain' (spaced fw) ((l0 :: placeFrom fw l0 rest).map setLayerDepth)
  rw [List.chain'_map]
  exact (chain_placeFrom fw l0 rest).imp (fun a b hab => hab)

/-- The positioning loop copies the vertical and depth coordinates of the
previously placed layer into each moved layer. -/
theorem placeFrom_vertical (fw : ℚ) : ∀ (prev : Layer) (ls : List Layer),
    ∀ l ∈ placeFrom fw prev ls,
      l.center.y = prev.center.y ∧ l.center.z = prev.center.z := by
  intro prev ls
  induction ls generalizing prev with
  | nil => simp [placeFrom]
  | cons cur rest ih =>
      intro l hl
      rw [placeFrom] at hl
      rcases List.mem_cons.mp hl with h | h
      · subst h; exact ⟨rfl, rfl⟩
      · exact ih (placeStep fw prev cur) l h

/-- C2: for every sequence of at least two layers with known widths, after
the layout phase and before the final recentering, widths are preserved, the
first layer's center is unchanged, each later layer's center equals the
previous layer's center shifted horizontally by exactly
`frame_width * 0.05 + width(prev)/2 + width(cur)/2` (vertical and depth
coordinates matching the previous placed layer), and consequently
consecutive centers are separated horizontally by at least the sum of the
two half-widths. -/
theorem layout_spacing_and_separation (fw : ℚ) (layers : List Layer)
    (hfw : 0 ≤ fw) (hN : 2 ≤ layers.length) :
    ((placeLayers fw layers).map Layer.width = layers.map Layer.width) ∧
    ((placeLayers fw layers).head?.map Layer.center = layers.head?.map Layer.center) ∧
    List.Chain' (spaced fw) (placeLayers fw layers) ∧
    List.Chain' (fun a b => a.width / 2 + b.width / 2 ≤ b.center.x - a.center.x)
      (placeLayers fw layers) := by
  obtain ⟨l0, rest, rfl⟩ : ∃ l0 rest, layers = l0 :: rest := by
    cases layers with
    | nil => simp at hN
    | cons a b => exact ⟨a, b, rfl⟩
  refine ⟨placeLayers_map_width fw _, rfl, chain_placeLayers fw l0 rest, ?_⟩
  refine (chain_placeLayers fw l0 rest).imp (fun a b hab => ?_)
  have hab' : b.center =
      ⟨a.center.x + (fw * (5 / 100) + (a.width / 2 + b.width / 2)),
       a.center.y, a.center.z⟩ := hab
  have h5 : (0 : ℚ) ≤ fw * (5 / 100) := by positivity
  rw [hab']
  show a.width / 2 + b.width / 2 ≤
    a.center.x + (fw * (5 / 100) + (a.width / 2 + b.width / 2)) - a.center.x
  linarith

/-- Sample wide layer for concrete instantiations. -/
def wideLayer : Layer := ⟨LayerTag.ff, 0, ⟨1, 2, 3⟩, 4, 0, 1, 1⟩

/-- Sample narrow layer for concrete instantiations. -/
def narrowLayer : Layer := ⟨LayerTag.ff, 0, ⟨0, 0, 0⟩, 1, 0, 1, 1⟩

/-- Witness for the layout theorem at a concrete heterogeneous pair. -/
theorem layout_spacing_and_separation_witness :
    List.Chain' (fun a b => a.width / 2 + b.width / 2 ≤ b.center.x - a.center.x)
      (placeLayers 10 [wideLayer, narrowLayer]) :=
  (layout_spacing_and_separation 10 [wideLayer, narrowLayer]
    (by decide) (by decide)).2.2.2

/-- Sample layer at the origin. -/
def vLayerA : Layer := ⟨LayerTag.ff, 0, ⟨0, 0, 0⟩, 1, 0, 1, 1⟩

/-- Sample layer whose default vertical position differs from the anchor's. -/
def vLayerB : Layer := ⟨LayerTag.ff, 0, ⟨0, 5, 0⟩, 1, 0, 1, 1⟩

/-- C9 counterexample: the layout phase does not keep each repositioned
layer's own default vertical coordinate.  With defaults y = 0 and y = 5, the
second layer's vertical coordinate after layout is 0 (the anchor's), not its
own default 5: `move_to(previous_layer.get_center())` overwrites it. -/
theorem layout_vertical_counterexample :
    (placeLayers 0 [vLayerA, vLayerB]).map (fun l => l.center.y) = [0, 0] ∧
    [vLayerA, vLayerB].map (fun l => l.center.y) = [0, 5] := by decide

/-- C9 (amended): the layout phase leaves the horizontal axis as the only
independent coordinate; each repositioned layer's vertical and depth
coordinates are copied from the previously placed layer, so every placed
layer ends at the anchor layer's vertical and depth coordinates (its own
defaults are preserved only when they coincide with the anchor's). -/
theorem layout_vertical_propagates_anchor (fw : ℚ) (l0 : Layer) (rest : List Layer) :
    ∀ l ∈ placeLayers fw (l0 :: rest),
      l.center.y = l0.center.y ∧ l.center.z = l0.center.z := by
  intro l hl
  simp only [placeLayers, List.mem_map] at hl
  obtain ⟨x, hx, rfl⟩ := hl
  rcases List.mem_cons.mp hx with h | h
  · subst h; exact ⟨rfl, rfl⟩
  · exact ⟨(placeFrom_vertical fw l0 rest x h).1, (placeFrom_vertical fw l0 rest x h).2⟩

/-- Witness for the amended vertical-propagation theorem at a concrete pair
with differing default vertical positions. -/
theorem layout_vertical_propagates_anchor_witness :
    (setLayerDepth (placeStep 0 vLayerA vLayerB)).center.y = vLayerA.center.y ∧
    (setLayerDepth (placeStep 0 vLayerA vLayerB)).center.z = vLayerA.center.z :=
  layout_vertical_propagates_anchor 0 vLayerA [vLayerB] _
    (List.mem_cons_of_mem _ (List.mem_cons_self _ _))

/-- The positioning loop preserves the number of layers. -/
theorem placeFrom_length (fw : ℚ) (prev : Layer) (ls : List Layer) :
    (placeFrom fw prev ls).length = ls.length := by
  have h := congrArg List.length (placeFrom_map_blind fw Layer.width (fun _ _ => rfl) prev ls)
  simpa using h

/-- The dispatch succeeds exactly on the supported tag pairs. -/
theorem dispatch_isSome (ew dr : ℚ) (a b : Layer) :
    (dispatchConnector ew dr a b).isSome = supportedTags a.tag b.tag := by
  cases ha : a.tag <;> cases hb : b.tag <;>
    simp [dispatchConnector, supportedTags, ha, hb]

/-- A dispatched connector references exactly the two layers of its
adjacency. -/
theorem dispatch_src_dst (ew dr : ℚ) (a b : Layer) (c : Connector)
    (h : dispatchConnector ew dr a b = some c) : c.src = a ∧ c.dst = b := by
  unfold dispatchConnector at h
  cases ha : a.tag <;> cases hb : b.tag <;> rw [ha, hb] at h <;>
    simp_all [FeedForwardToFeedForward, ImageToFeedForward] <;>
    simp [← h]

/-- The dispatch yields no connector on an unsupported tag pair. -/
theorem dispatch_none (ew dr : ℚ) (a b : Layer)
    (h : supportedTags a.tag b.tag = false) :
    dispatchConnector ew dr a b = none := by
  unfold dispatchConnector
  cases ha : a.tag <;> cases hb : b.tag <;> rw [ha, hb] at h <;>
    simp_all [supportedTags]

/-- A chain survives replacing the layers by others with the same tags, for
relations that only read the tags. -/
theorem chain_tags_transfer {P : LayerTag → LayerTag → Prop} {ls ls' : List Layer}
    (h : ls.map Layer.tag = ls'.map Layer.tag)
    (hc : List.Chain' (fun a b => P a.tag b.tag) ls) :
    List.Chain' (fun a b => P a.tag b.tag) ls' := by
  have h1 : List.Chain' P (ls.map Layer.tag) := (List.chain'_map Layer.tag).mpr hc
  rw [h] at h1
  exact (List.chain'_map Layer.tag).mp h1

/-- The synthesis loop emits exactly the unsupported adjacent tag pairs, in
chain order. -/
theorem synthChain_warns (ew dr : ℚ) : ∀ (l : Layer) (rest : List Layer),
    (synthChain ew dr l rest).warns = unsupportedAdjacent (l :: rest) := by
  intro l rest
  induction rest generalizing l with
  | nil => rfl
  | cons next r2 ih =>
      cases hsup : supportedTags l.tag next.tag with
      | true =>
          have hiss : (dispatchConnector ew dr l next).isSome := by
            rw [dispatch_isSome]; exact hsup
          obtain ⟨c, hd⟩ := Option.isSome_iff_exists.mp hiss
          rw [synthChain, hd, unsupportedAdjacent, if_pos hsup]
          exact ih next
      | false =>
          rw [synthChain, dispatch_none ew dr l next hsup, unsupportedAdjacent,
              if_neg (by simp [hsup])]
          show (l.tag, next.tag) :: (synthChain ew dr next r2).warns = _
          rw [ih next]

/-- Connectors plus warnings account for every adjacency. -/
theorem synthChain_count (ew dr : ℚ) : ∀ (l : Layer) (rest : List Layer),
    (synthChain ew dr l rest).conns.length + (synthChain ew dr l rest).warns.length
      = rest.length := by
  intro l rest
  induction rest generalizing l with
  | nil => rfl
  | cons next r2 ih =>
      have h := ih next
      cases hd : dispatchConnector ew dr l next with
      | some c =>
          rw [synthChain, hd]
          show ((c :: (synthChain ew dr next r2).conns).length +
            (synthChain ew dr next r2).warns.length = r2.length + 1)
          simp only [List.length_cons]
          omega
      | none =>
          rw [synthChain, hd]
          show ((synthChain ew dr next r2).conns.length +
            ((l.tag, next.tag) :: (synthChain ew dr next r2).warns).length = r2.length + 1)
          simp only [List.length_cons]
          omega

/-- The display sequence the loop builds is never empty. -/
theorem synthChain_elems_ne_nil (ew dr : ℚ) (l : Layer) (rest : List Layer) :
    (synthChain ew dr l rest).elems ≠ [] := by
  cases rest with
  | nil => simp [synthChain]
  | cons next r2 =>
      cases hd : dispatchConnector ew dr l next <;> simp [synthChain, hd]

/-- The display sequence always ends with the final layer. -/
theorem synthChain_last (ew dr : ℚ) : ∀ (l : Layer) (rest : List Layer),
    (synthChain ew dr l rest).elems.getLast? = (l :: rest).getLast?.map Element.layer := by
  intro l rest
  induction rest generalizing l with
  | nil => rfl
  | cons next r2 ih =>
      have hne := synthChain_elems_ne_nil ew dr next r2
      cases hd : dispatchConnector ew dr l next with
      | some c =>
          rw [synthChain, hd]
          show (Element.layer l :: Element.conn c :: (synthChain ew dr next r2).elems).getLast?
            = ((l :: next :: r2).getLast?).map Element.layer
          rw [List.getLast?_cons_cons]
          cases he : (synthChain ew dr next r2).elems with
          | nil => exact absurd he hne
          | cons e0 es =>
              rw [List.getLast?_cons_cons, ← he, ih next, List.getLast?_cons_cons]
      | none =>
          rw [synthChain, hd]
          show (Element.layer l :: (synthChain ew dr next r2).elems).getLast?
            = ((l :: next :: r2).getLast?).map Element.layer
          cases he : (synthChain ew dr next r2).elems with
          | nil => exact absurd he hne
          | cons e0 es =>
              rw [List.getLast?_cons_cons, ← he, ih next, List.getLast?_cons_cons]

/-- When every adjacency is supported the loop produces one connector per
adjacency, aligned with it, no warnings, and the interleaved display
sequence. -/
theorem synthChain_supported (ew dr : ℚ) : ∀ (l : Layer) (rest : List Layer),
    List.Chain' (fun a b => supportedTags a.tag b.tag = true) (l :: rest) →
    (synthChain ew dr l rest).warns = [] ∧
    (synthChain ew dr l rest).conns.length = rest.length ∧
    (synthChain ew dr l rest).conns.map Connector.src = (l :: rest).dropLast ∧
    (synthChain ew dr l rest).conns.map Connector.dst = rest ∧
    (synthChain ew dr l rest).elems = interleave (l :: rest) (synthChain ew dr l rest).conns := by
  intro l rest
  induction rest generalizing l with
  | nil => intro _; exact ⟨rfl, rfl, rfl, rfl, rfl⟩
  | cons next r2 ih =>
      intro hch
      have h1 : supportedTags l.tag next.tag = true := (List.chain'_cons.mp hch).1
      have h2 := ih next (List.chain'_cons.mp hch).2
      have hiss : (dispatchConnector ew dr l next).isSome := by
        rw [dispatch_isSome]; exact h1
      obtain ⟨c, hd⟩ := Option.isSome_iff_exists.mp hiss
      obtain ⟨hsrc, hdst⟩ := dispatch_src_dst ew dr l next c hd
      rw [synthChain, hd]
      refine ⟨h2.1, ?_, ?_, ?_, ?_⟩
      · show (c :: (synthChain ew dr next r2).conns).length = r2.length + 1
        simp only [List.length_cons]
        rw [h2.2.1]
      · show Connector.src c :: (synthChain ew dr next r2).conns.map Connector.src
          = l :: (next :: r2).dropLast
        rw [hsrc, h2.2.2.1]
      · show Connector.dst c :: (synthChain ew dr next r2).conns.map Connector.dst
          = next :: r2
        rw [hdst, h2.2.2.2.1]
      · show Element.layer l :: Element.conn c :: (synthChain ew dr next r2).elems
          = Element.layer l :: Element.conn c
            :: interleave (next :: r2) (synthChain ew dr next r2).conns
        rw [h2.2.2.2.2]

/-- On an all-feed-forward chain every adjacency dispatches to the
FeedForward→FeedForward variant and no warning is emitted. -/
theorem synthChain_allFF (ew dr : ℚ) : ∀ (l : Layer) (rest : List Layer),
    (∀ x ∈ l :: rest, x.tag = LayerTag.ff) →
    (synthChain ew dr l rest).warns = [] ∧
    (synthChain ew dr l rest).conns.length = rest.length ∧
    (∀ c ∈ (synthChain ew dr l rest).conns, c.kind = ConnectorKind.ffToFF) := by
  intro l rest
  induction rest generalizing l with
  | nil => intro _; exact ⟨rfl, rfl, by simp [synthChain]⟩
  | cons next r2 ih =>
      intro hff
      have hl : l.tag = LayerTag.ff := hff l (List.mem_cons_self _ _)
      have hn : next.tag = LayerTag.ff :=
        hff next (List.mem_cons_of_mem _ (List.mem_cons_self _ _))
      have hd : dispatchConnector ew dr l next
          = some (FeedForwardToFeedForward l next ew) := by
        unfold dispatchConnector; rw [hl, hn]
      have h2 := ih next (fun x hx => hff x (List.mem_cons_of_mem _ hx))
      rw [synthChain, hd]
      refine ⟨h2.1, ?_, ?_⟩
      · show ((FeedForwardToFeedForward l next ew) :: (synthChain ew dr next r2).conns).length
          = r2.length + 1
        simp only [List.length_cons]
        rw [h2.2.1]
      · intro c hc
        rcases List.mem_cons.mp hc with h | h
        · subst h; rfl
        · exact h2.2.2 c h

/-- Every element of the display sequence, after the connector depth pass,
carries depth 2 when it is a layer (provided the placed layers do) and depth
0 when it is a connector. -/
theorem synthChain_elems_depth (ew dr : ℚ) : ∀ (l : Layer) (rest : List Layer),
    (∀ x ∈ l :: rest, x.zIndex = 2) →
    ∀ e ∈ (synthChain ew dr l rest).elems.map setConnectorDepth,
      Element.zIndex e = (if Element.isLayerElem e = true then 2 else 0) := by
  intro l rest
  induction rest generalizing l with
  | nil =>
      intro hz e he
      simp only [synthChain, List.map_cons, List.map_nil, List.mem_cons,
        List.not_mem_nil, or_false] at he
      subst he
      simp [setConnectorDepth, Element.zIndex, Element.isLayerElem,
        hz l (List.mem_cons_self _ _)]
  | cons next r2 ih =>
      intro hz e he
      have hz2 : ∀ x ∈ next :: r2, x.zIndex = 2 :=
        fun x hx => hz x (List.mem_cons_of_mem _ hx)
      cases hd : dispatchConnector ew dr l next with
      | some c =>
          rw [synthChain, hd] at he
          simp only [List.map_cons, List.mem_cons] at he
          rcases he with h | h | h
          · subst h
            simp [setConnectorDepth, Element.zIndex, Element.isLayerElem,
              hz l (List.mem_cons_self _ _)]
          · subst h
            simp [setConnectorDepth, setConnectorDepthC, Element.zIndex,
              Element.isLayerElem]
          · exact ih next hz2 e h
      | none =>
          rw [synthChain, hd] at he
          simp only [List.map_cons, List.mem_cons] at he
          rcases he with h | h
          · subst h
            simp [setConnectorDepth, Element.zIndex, Element.isLayerElem,
              hz l (List.mem_cons_self _ _)]
          · exact ih next hz2 e h

/-- The connector depth pass commutes with the interleaving. -/
theorem interleave_map_depth : ∀ (ls : List Layer) (cs : List Connector),
    (interleave ls cs).map setConnectorDepth
      = interleave ls (cs.map setConnectorDepthC) := by
  intro ls
  induction ls with
  | nil => intro cs; rfl
  | cons l rest ih =>
      intro cs
      cases cs with
      | nil => rfl
      | cons c cs2 =>
          show Element.layer l :: Element.conn (setConnectorDepthC c)
              :: (interleave rest cs2).map setConnectorDepth
            = interleave (l :: rest) (setConnectorDepthC c :: cs2.map setConnectorDepthC)
          rw [ih cs2]
          rfl

/-- `NeuralNetwork.construct` on a non-empty layer sequence, written out:
the placed layers, the depth-adjusted connectors, the depth-adjusted display
sequence and the warnings of the synthesis loop. -/
theorem construct_cons_eq (fw : ℚ) (i0 : Layer) (irest : List Layer)
    (ec : Color) (lsp : ℚ) (adc : Color) (ew dr : ℚ) :
    NeuralNetwork.construct fw (i0 :: irest) ec lsp adc ew dr =
      some ⟨placeLayers fw (i0 :: irest),
            (synthChain ew dr (setLayerDepth i0)
              ((placeFrom fw i0 irest).map setLayerDepth)).conns.map setConnectorDepthC,
            (synthChain ew dr (setLayerDepth i0)
              ((placeFrom fw i0 irest).map setLayerDepth)).elems.map setConnectorDepth,
            (synthChain ew dr (setLayerDepth i0)
              ((placeFrom fw i0 irest).map setLayerDepth)).warns,
            ec, lsp, adc, ew, dr⟩ := rfl

/-- Tag facts transfer along lists with equal tag images. -/
theorem mem_tag_of_map_eq {ls ls' : List Layer}
    (h : ls.map Layer.tag = ls'.map Layer.tag)
    (hall : ∀ x ∈ ls', x.tag = LayerTag.ff) : ∀ l ∈ ls, l.tag = LayerTag.ff := by
  intro l hl
  have hm : l.tag ∈ ls'.map Layer.tag := by
    rw [← h]; exact List.mem_map_of_mem _ hl
  obtain ⟨x, hx, he⟩ := List.mem_map.mp hm
  rw [← he]; exact hall x hx

/-- C3: when every adjacent pair is a supported type pairing, construction
succeeds, the connector sequence has exactly one entry per adjacency,
connector i is built from placed layers i and i+1 (its `src`/`dst`
references), the display sequence is the interleaving ending with the final
layer, and no diagnostic is emitted. -/
theorem connective_synthesis_all_supported (fw : ℚ) (inputs : List Layer)
    (ec : Color) (lsp : ℚ) (adc : Color) (ew dr : ℚ) (hne : inputs ≠ [])
    (hsup : List.Chain' (fun a b => supportedTags a.tag b.tag = true) inputs) :
    ∃ nn, NeuralNetwork.construct fw inputs ec lsp adc ew dr = some nn ∧
      nn.inputLayers = placeLayers fw inputs ∧
      nn.connectiveLayers.length + 1 = inputs.length ∧
      nn.connectiveLayers.map Connector.src = nn.inputLayers.dropLast ∧
      nn.connectiveLayers.map Connector.dst = nn.inputLayers.tail ∧
      nn.allLayers = interleave nn.inputLayers nn.connectiveLayers ∧
      nn.warnings = [] := by
  obtain ⟨i0, irest, rfl⟩ : ∃ a b, inputs = a :: b := by
    cases inputs with
    | nil => exact absurd rfl hne
    | cons a b => exact ⟨a, b, rfl⟩
  have hsup' : List.Chain' (fun a b => supportedTags a.tag b.tag = true)
      (setLayerDepth i0 :: (placeFrom fw i0 irest).map setLayerDepth) :=
    @chain_tags_transfer (fun t1 t2 => supportedTags t1 t2 = true)
      (i0 :: irest) (placeLayers fw (i0 :: irest))
      (placeLayers_map_tag fw (i0 :: irest)).symm hsup
  have h := synthChain_supported ew dr (setLayerDepth i0)
    ((placeFrom fw i0 irest).map setLayerDepth) hsup'
  refine ⟨_, construct_cons_eq fw i0 irest ec lsp adc ew dr, rfl, ?_, ?_, ?_, ?_, h.1⟩
  · show ((synthChain ew dr (setLayerDepth i0)
        ((placeFrom fw i0 irest).map setLayerDepth)).conns.map setConnectorDepthC).length + 1
      = (i0 :: irest).length
    rw [List.length_map, h.2.1]
    simp [placeFrom_length]
  · show ((synthChain ew dr (setLayerDepth i0)
        ((placeFrom fw i0 irest).map setLayerDepth)).conns.map setConnectorDepthC).map
          Connector.src
      = (placeLayers fw (i0 :: irest)).dropLast
    rw [List.map_map]
    exact h.2.2.1
  · show ((synthChain ew dr (setLayerDepth i0)
        ((placeFrom fw i0 irest).map setLayerDepth)).conns.map setConnectorDepthC).map
          Connector.dst
      = (placeLayers fw (i0 :: irest)).tail
    rw [List.map_map]
    exact h.2.2.2.1
  · show (synthChain ew dr (setLayerDepth i0)
        ((placeFrom fw i0 irest).map setLayerDepth)).elems.map setConnectorDepth
      = interleave (placeLayers fw (i0 :: irest))
          ((synthChain ew dr (setLayerDepth i0)
            ((placeFrom fw i0 irest).map setLayerDepth)).conns.map setConnectorDepthC)
    rw [h.2.2.2.2, interleave_map_depth]
    rfl

/-- Chain of three feed-forward layers (every adjacency supported). -/
def ffTriple : List Layer := [wideLayer, narrowLayer, vLayerA]

/-- Witness for the supported-synthesis theorem at a chain of three
feed-forward layers. -/
theorem connective_synthesis_all_supported_witness :
    ∃ nn, NeuralNetwork.construct 10 ffTriple defaultEdgeColor defaultLayerSpacing
        defaultAnimationDotColor defaultEdgeWidth defaultDotRadius = some nn ∧
      nn.connectiveLayers.length + 1 = ffTriple.length ∧
      nn.warnings = [] := by
  obtain ⟨nn, h1, _, h3, _, _, _, h7⟩ :=
    connective_synthesis_all_supported 10 ffTriple defaultEdgeColor defaultLayerSpacing
      defaultAnimationDotColor defaultEdgeWidth defaultDotRadius
      (by exact List.cons_ne_nil _ _)
      (by exact List.Chain.cons rfl (List.Chain.cons rfl List.Chain.nil))
  exact ⟨nn, h1, h3, h7⟩

/-- C4: construction always completes on a non-empty sequence; each
unsupported adjacency emits exactly one diagnostic naming both type tags (in
chain order), contributes no connector (connectors plus warnings account for
all adjacencies, so with at least one warning the connector sequence is
shorter than N−1), and the display sequence still ends with the final
layer. -/
theorem connective_synthesis_skip_diagnostic (fw : ℚ) (inputs : List Layer)
    (ec : Color) (lsp : ℚ) (adc : Color) (ew dr : ℚ) (hne : inputs ≠ []) :
    ∃ nn, NeuralNetwork.construct fw inputs ec lsp adc ew dr = some nn ∧
      nn.inputLayers.length = inputs.length ∧
      nn.warnings = unsupportedAdjacent nn.inputLayers ∧
      nn.connectiveLayers.length + nn.warnings.length + 1 = inputs.length ∧
      nn.allLayers.getLast? = nn.inputLayers.getLast?.map Element.layer ∧
      (nn.warnings ≠ [] → nn.connectiveLayers.length + 1 < inputs.length) := by
  obtain ⟨i0, irest, rfl⟩ : ∃ a b, inputs = a :: b := by
    cases inputs with
    | nil => exact absurd rfl hne
    | cons a b => exact ⟨a, b, rfl⟩
  have hcount := synthChain_count ew dr (setLayerDepth i0)
    ((placeFrom fw i0 irest).map setLayerDepth)
  have hrest : ((placeFrom fw i0 irest).map setLayerDepth).length = irest.length := by
    simp [placeFrom_length]
  refine ⟨_, construct_cons_eq fw i0 irest ec lsp adc ew dr,
    by rw [placeLayers_length], synthChain_warns ew dr _ _, ?_, ?_, ?_⟩
  · show ((synthChain ew dr (setLayerDepth i0)
        ((placeFrom fw i0 irest).map setLayerDepth)).conns.map setConnectorDepthC).length +
      (synthChain ew dr (setLayerDepth i0)
        ((placeFrom fw i0 irest).map setLayerDepth)).warns.length + 1
      = (i0 :: irest).length
    rw [List.length_map]
    simp only [List.length_cons]
    omega
  · show ((synthChain ew dr (setLayerDepth i0)
        ((placeFrom fw i0 irest).map setLayerDepth)).elems.map setConnectorDepth).getLast?
      = ((placeLayers fw (i0 :: irest)).getLast?).map Element.layer
    rw [List.getLast?_map, synthChain_last, Option.map_map]
    rfl
  · intro hw
    have hwpos : 0 < (synthChain ew dr (setLayerDepth i0)
        ((placeFrom fw i0 irest).map setLayerDepth)).warns.length :=
      List.length_pos.mpr hw
    show ((synthChain ew dr (setLayerDepth i0)
        ((placeFrom fw i0 irest).map setLayerDepth)).conns.map setConnectorDepthC).length + 1
      < (i0 :: irest).length
    rw [List.length_map]
    simp only [List.length_cons]
    omega

/-- Chain with one unsupported adjacency: (FeedForward, Image) matches no
dispatch arm, (Image, FeedForward) is supported. -/
def mixedInputs : List Layer :=
  [FeedForwardLayer 3 defaultNodeColor defaultNodeRadius, ImageLayer 1,
   FeedForwardLayer 5 defaultNodeColor defaultNodeRadius]

/-- Witness for the skip-diagnostic theorem at a chain whose first adjacency
is unsupported. -/
theorem connective_synthesis_skip_diagnostic_witness :
    ∃ nn, NeuralNetwork.construct 14 mixedInputs defaultEdgeColor defaultLayerSpacing
        defaultAnimationDotColor defaultEdgeWidth defaultDotRadius = some nn ∧
      nn.warnings = unsupportedAdjacent nn.inputLayers ∧
      nn.allLayers.getLast? = nn.inputLayers.getLast?.map Element.layer ∧
      (nn.warnings ≠ [] → nn.connectiveLayers.length + 1 < mixedInputs.length) := by
  obtain ⟨nn, h1, _, h3, _, h5, h6⟩ :=
    connective_synthesis_skip_diagnostic 14 mixedInputs defaultEdgeColor
      defaultLayerSpacing defaultAnimationDotColor defaultEdgeWidth defaultDotRadius
      (by exact List.cons_ne_nil _ _)
  exact ⟨nn, h1, h3, h5, h6⟩

/-- C5: constructing the diagram with an empty layer sequence fails:
`_construct_connective_layers` aborts on the empty sequence (the
`input_layers[-1]` access), so no diagram value is produced. -/
theorem construct_empty_fails (fw : ℚ) (ec : Color) (lsp : ℚ) (adc : Color)
    (ew dr : ℚ) :
    NeuralNetwork.construct fw [] ec lsp adc ew dr = none := rfl

/-- C10: a `FeedForwardNeuralNetwork` over a non-empty node-count list
builds exactly one feed-forward layer per count, in list order; every
adjacency is the supported (FeedForward, FeedForward) pairing, so the
connector sequence has exactly one FeedForward→FeedForward entry per
adjacency and no diagnostic is emitted. -/
theorem feedforward_network_all_supported (fw : ℚ) (counts : List Nat) (nr : ℚ)
    (nc ec : Color) (lsp : ℚ) (adc : Color) (ew dr : ℚ) (hne : counts ≠ []) :
    ∃ nn, FeedForwardNeuralNetwork.construct fw counts nr nc ec lsp adc ew dr = some nn ∧
      nn.inputLayers.length = counts.length ∧
      nn.inputLayers.map Layer.nodes = counts ∧
      (∀ l ∈ nn.inputLayers, l.tag = LayerTag.ff) ∧
      nn.connectiveLayers.length + 1 = counts.length ∧
      (∀ c ∈ nn.connectiveLayers, c.kind = ConnectorKind.ffToFF) ∧
      nn.warnings = [] := by
  obtain ⟨c0, cr, rfl⟩ : ∃ a b, counts = a :: b := by
    cases counts with
    | nil => exact absurd rfl hne
    | cons a b => exact ⟨a, b, rfl⟩
  have hins : ∀ x ∈ ((c0 :: cr).map (fun n => FeedForwardLayer n nc nr)),
      x.tag = LayerTag.ff := by
    intro x hx
    obtain ⟨n, _, rfl⟩ := List.mem_map.mp hx
    rfl
  have htags : ∀ l ∈ placeLayers fw ((c0 :: cr).map (fun n => FeedForwardLayer n nc nr)),
      l.tag = LayerTag.ff :=
    mem_tag_of_map_eq (placeLayers_map_tag fw _) hins
  have h3 := synthChain_allFF ew dr (setLayerDepth (FeedForwardLayer c0 nc nr))
    ((placeFrom fw (FeedForwardLayer c0 nc nr) (cr.map (fun n => FeedForwardLayer n nc nr))).map
      setLayerDepth) htags
  refine ⟨_, construct_cons_eq fw (FeedForwardLayer c0 nc nr)
    (cr.map (fun n => FeedForwardLayer n nc nr)) ec lsp adc ew dr,
    ?_, ?_, htags, ?_, ?_, h3.1⟩
  · show (placeLayers fw ((c0 :: cr).map (fun n => FeedForwardLayer n nc nr))).length
      = (c0 :: cr).length
    rw [placeLayers_length]
    simp
  · show (placeLayers fw ((c0 :: cr).map (fun n => FeedForwardLayer n nc nr))).map
        Layer.nodes = c0 :: cr
    rw [placeLayers_map_nodes, List.map_map]
    exact List.map_id (c0 :: cr)
  · show ((synthChain ew dr (setLayerDepth (FeedForwardLayer c0 nc nr))
        ((placeFrom fw (FeedForwardLayer c0 nc nr)
          (cr.map (fun n => FeedForwardLayer n nc nr))).map setLayerDepth)).conns.map
            setConnectorDepthC).length + 1
      = (c0 :: cr).length
    rw [List.length_map, h3.2.1]
    simp [placeFrom_length]
  · intro c hc
    obtain ⟨c', hc', rfl⟩ := List.mem_map.mp hc
    exact h3.2.2 c' hc'

/-- Witness for the feed-forward-network theorem at the node counts of the
source module's docstring example. -/
theorem feedforward_network_all_supported_witness :
    ∃ nn, FeedForwardNeuralNetwork.construct 14 [5, 3, 5] defaultNodeRadius
        defaultNodeColor defaultEdgeColor defaultLayerSpacing defaultAnimationDotColor
        defaultEdgeWidth defaultDotRadius = some nn ∧
      nn.inputLayers.map Layer.nodes = [5, 3, 5] ∧
      nn.connectiveLayers.length + 1 = [5, 3, 5].length ∧
      nn.warnings = [] := by
  obtain ⟨nn, h1, _, h3, _, h5, _, h7⟩ :=
    feedforward_network_all_supported 14 [5, 3, 5] defaultNodeRadius defaultNodeColor
      defaultEdgeColor defaultLayerSpacing defaultAnimationDotColor defaultEdgeWidth
      defaultDotRadius (by decide)
  exact ⟨nn, h1, h3, h5, h7⟩

/-- Translation does not touch a display element's render depth. -/
theorem shiftBy_zIndex (v : Vec3) (e : Element) :
    (Element.shiftBy v e).zIndex = e.zIndex := by
  cases e <;> rfl

/-- Translation does not change whether an element is a layer. -/
theorem shiftBy_isLayerElem (v : Vec3) (e : Element) :
    (Element.shiftBy v e).isLayerElem = e.isLayerElem := by
  cases e <;> rfl

/-- C8: after construction (and under the final recentering translation)
every layer has render depth 2 and every connector has render depth 0 —
layers render strictly in front of connectors — for every diagram,
regardless of layer types. -/
theorem depth_layers_above_connectors (fw : ℚ) (inputs : List Layer)
    (ec : Color) (lsp : ℚ) (adc : Color) (ew dr : ℚ) (v : Vec3) (nn : NeuralNetwork)
    (h : NeuralNetwork.construct fw inputs ec lsp adc ew dr = some nn) :
    (∀ l ∈ (nn.recenterBy v).inputLayers, l.zIndex = 2) ∧
    (∀ c ∈ (nn.recenterBy v).connectiveLayers, c.zIndex = 0) ∧
    (∀ e ∈ (nn.recenterBy v).allLayers,
      Element.zIndex e = (if Element.isLayerElem e = true then 2 else 0)) := by
  obtain ⟨i0, irest, rfl⟩ : ∃ a b, inputs = a :: b := by
    cases inputs with
    | nil => exact Option.noConfusion h
    | cons a b => exact ⟨a, b, rfl⟩
  rw [construct_cons_eq] at h
  obtain rfl := Option.some.inj h
  refine ⟨?_, ?_, ?_⟩
  · intro l hl
    obtain ⟨x, hx, rfl⟩ := List.mem_map.mp hl
    exact placeLayers_zIndex fw (i0 :: irest) x hx
  · intro c hc
    obtain ⟨c1, hc1, rfl⟩ := List.mem_map.mp hc
    obtain ⟨c2, hc2, rfl⟩ := List.mem_map.mp hc1
    rfl
  · intro e he
    obtain ⟨e1, he1, rfl⟩ := List.mem_map.mp he
    rw [shiftBy_zIndex, shiftBy_isLayerElem]
    exact synthChain_elems_depth ew dr (setLayerDepth i0)
      ((placeFrom fw i0 irest).map setLayerDepth)
      (placeLayers_zIndex fw (i0 :: irest)) e1 he1

/-- Witness for the depth theorem: the first placed layer of a concrete
mixed-type diagram, after recentering, has render depth 2. -/
theorem depth_layers_above_connectors_witness :
    (Layer.shiftBy ⟨1, 2, 0⟩
      (setLayerDepth (FeedForwardLayer 3 defaultNodeColor defaultNodeRadius))).zIndex = 2 :=
  (depth_layers_above_connectors 14 mixedInputs defaultEdgeColor defaultLayerSpacing
    defaultAnimationDotColor defaultEdgeWidth defaultDotRadius ⟨1, 2, 0⟩ _ rfl).1
    _ (List.mem_cons_self _ _)

/-- With lag ratio 1 and nonnegative durations, the accumulator form of the
maximal end time evaluates to the accumulated maximum of start plus the
total duration. -/
theorem maxEndAux_one : ∀ (subs : List AnimAtom), (∀ a ∈ subs, 0 ≤ a.dur) →
    ∀ start acc, maxEndAux 1 start acc subs
      = (if subs = [] then acc else max acc (start + (subs.map AnimAtom.dur).sum)) := by
  intro subs
  induction subs with
  | nil => intro _ start acc; rfl
  | cons a rest ih =>
      intro h start acc
      have hrest : ∀ x ∈ rest, 0 ≤ x.dur := fun x hx => h x (List.mem_cons_of_mem _ hx)
      have hsum : 0 ≤ (rest.map AnimAtom.dur).sum := by
        apply List.sum_nonneg
        intro x hx
        obtain ⟨a', ha', rfl⟩ := List.mem_map.mp hx
        exact hrest a' ha'
      rw [maxEndAux, ih hrest]
      cases rest with
      | nil => simp
      | cons b r2 =>
          rw [if_neg (List.cons_ne_nil _ _), if_neg (List.cons_ne_nil _ _), one_mul,
            max_assoc,
            max_eq_right (show start + a.dur
              ≤ start + a.dur + ((b :: r2).map AnimAtom.dur).sum by linarith [hsum])]
          conv_rhs => rw [List.map_cons, List.sum_cons]
          rw [add_assoc]

/-- With lag ratio 1 and nonnegative durations, the total computed duration
is the sum of the sub-animation durations. -/
theorem maxEndAux_one_sum (subs : List AnimAtom) (h : ∀ a ∈ subs, 0 ≤ a.dur) :
    maxEndAux 1 0 0 subs = (subs.map AnimAtom.dur).sum := by
  rw [maxEndAux_one subs h 0 0]
  cases subs with
  | nil => rfl
  | cons a rest =>
      rw [if_neg (List.cons_ne_nil _ _), zero_add]
      refine max_eq_right (List.sum_nonneg ?_)
      intro x hx
      obtain ⟨a', ha', rfl⟩ := List.mem_map.mp hx
      exact h a' ha'

/-- With lag ratio 1 each sub-animation starts exactly when the previous one
ends. -/
theorem startsAux_chain_one : ∀ (subs : List AnimAtom) (t : ℚ),
    List.Chain' (fun p q => q.2 = p.2 + p.1.dur) (subs.zip (startsAux 1 t subs)) := by
  intro subs
  induction subs with
  | nil => intro t; simp [startsAux]
  | cons a rest ih =>
      intro t
      cases rest with
      | nil => simp [startsAux]
      | cons b r2 =>
          show List.Chain' (fun p q => q.2 = p.2 + p.1.dur)
            ((a, t) :: (b, t + 1 * a.dur)
              :: (r2.zip (startsAux 1 ((t + 1 * a.dur) + 1 * b.dur) r2)))
          refine List.chain'_cons.mpr ⟨by simp, ?_⟩
          exact ih (t + 1 * a.dur)

/-- C6: whenever `make_forward_pass_animation` returns an animation, the
returned group's total duration is exactly the requested run time,
independent of the number of chained layers and connectors, and its
sub-animations are composed with lag ratio 1 (back-to-back). -/
theorem forwardPass_duration_eq_request (nn : NeuralNetwork) (rt : ℚ) (pf : Bool)
    (g : AnimationGroup) (h : nn.makeForwardPassAnimation rt pf = some g) :
    g.runTime = rt ∧ g.lag = 1 := by
  unfold NeuralNetwork.makeForwardPassAnimation at h
  cases hf : forwardAtoms nn.connectiveLayers 0 nn.inputLayers with
  | none => rw [hf] at h; exact Option.noConfusion h
  | some atoms =>
      rw [hf] at h
      obtain rfl := Option.some.inj h
      exact ⟨rfl, rfl⟩

/-- Fallback network value for total extraction of constructed options. -/
def junkNN : NeuralNetwork := ⟨[], [], [], [], Color.white, 0, Color.red, 0, 0⟩

/-- A concrete all-supported network. -/
def sampleNN : NeuralNetwork :=
  (NeuralNetwork.construct 10 ffTriple defaultEdgeColor defaultLayerSpacing
    defaultAnimationDotColor defaultEdgeWidth defaultDotRadius).getD junkNN

/-- Fallback animation-group value. -/
def junkGroup : AnimationGroup := ⟨[], none, 0⟩

/-- The concrete forward-pass animation of `sampleNN`. -/
def sampleForwardPass : AnimationGroup :=
  (sampleNN.makeForwardPassAnimation 10 true).getD junkGroup

/-- Witness for the forward-pass duration theorem on a concrete network. -/
theorem forwardPass_duration_eq_request_witness :
    sampleForwardPass.runTime = 10 ∧ sampleForwardPass.lag = 1 :=
  forwardPass_duration_eq_request sampleNN 10 true sampleForwardPass rfl

/-- C7: the Create override contains one creation animation per element of
the display sequence, in chain order, composed with lag ratio 1 so that each
creation starts exactly when the previous one ends, and (for nonnegative
creation durations) its total duration is the sum of the elements' creation
durations. -/
theorem createOverride_sequential_sum (nn : NeuralNetwork)
    (h : ∀ e ∈ nn.allLayers, 0 ≤ Element.createDur e) :
    nn.createOverride.subs = nn.allLayers.map CreateAnim ∧
    nn.createOverride.lag = 1 ∧
    nn.createOverride.runTime = (nn.allLayers.map Element.createDur).sum ∧
    List.Chain' (fun p q => q.2 = p.2 + p.1.dur)
      (nn.createOverride.subs.zip nn.createOverride.startTimes) := by
  have hd : ∀ a ∈ nn.allLayers.map CreateAnim, 0 ≤ a.dur := by
    intro a ha
    obtain ⟨e, he, rfl⟩ := List.mem_map.mp ha
    exact h e he
  refine ⟨rfl, rfl, ?_, ?_⟩
  · show maxEndAux 1 0 0 (nn.allLayers.map CreateAnim)
      = (nn.allLayers.map Element.createDur).sum
    rw [maxEndAux_one_sum _ hd, List.map_map]
    rfl
  · exact startsAux_chain_one (nn.allLayers.map CreateAnim) 0

/-- Witness for the Create-override theorem on a concrete network. -/
theorem createOverride_sequential_sum_witness :
    sampleNN.createOverride.lag = 1 ∧
    sampleNN.createOverride.runTime = (sampleNN.allLayers.map Element.createDur).sum :=
  ⟨(createOverride_sequential_sum sampleNN (by decide)).2.1,
   (createOverride_sequential_sum sampleNN (by decide)).2.2.1⟩

/-- C1 (code bug): with an unsupported adjacency the connector sequence is
shorter than the adjacency count, yet `make_forward_pass_animation` indexes
`connective_layers[layer_index]` positionally.  On the chain
[FeedForward, Image, FeedForward], construction succeeds with one warning
and a single connector (of the Image→FeedForward variant, synthesized for
adjacency 1), but the forward-pass animation fails (the index access at
layer index 1 raises, modelled as `none`) instead of skipping the missing
connector and covering all three layers; the included connector would also
be consumed at loop index 0, out of step with its adjacency. -/
theorem forwardPass_crashes_on_skipped_connector :
    (NeuralNetwork.construct 14 mixedInputs defaultEdgeColor defaultLayerSpacing
      defaultAnimationDotColor defaultEdgeWidth defaultDotRadius).map
      (fun nn => (nn.warnings, nn.connectiveLayers.map Connector.kind,
        nn.makeForwardPassAnimation defaultRunTime true)) =
    some ([(LayerTag.ff, LayerTag.image)], [ConnectorKind.imageToFF], none) := rfl

end ManimML
